import Mathlib

/-!
Verification development for the ground-contact / data-return analysis
program (`run_passes.py`).

The embedding models machine floats as exact rationals (ℚ) and timestamps
as rational seconds on the UTC timeline.  External collaborators (the
skyfield propagator's `find_events` stream and `altaz` sampling, the
stdlib ISO-8601 parser, the TLE source) are parameters of the embedded
functions, exactly as the spec treats them: the core consumes a typed
event stream and an elevation-sampling oracle.
-/

namespace RunPasses

/-- Event kinds produced by `find_events`: code 0 = rise, 1 = culmination,
2 = set (comment at `run_passes.py:63`). -/
inductive EventKind where
  | rise
  | culminate
  | fall
deriving DecidableEq, Repr

/-- An event of the per-pair stream: a timestamp (seconds, UTC timeline)
paired with its kind. -/
abbrev Ev : Type := ℚ × EventKind

/-- Python's `round` halves-to-even on the value; modeled on ℚ:
nearest integer, ties to the even one. -/
def roundHalfEven (q : ℚ) : ℤ :=
  if q - ⌊q⌋ < 1/2 then ⌊q⌋
  else if 1/2 < q - ⌊q⌋ then ⌊q⌋ + 1
  else if 2 ∣ ⌊q⌋ then ⌊q⌋ else ⌊q⌋ + 1

/-- `round(x, 1)` of `run_passes.py:91`. -/
def round1 (q : ℚ) : ℚ := (roundHalfEven (q * 10) : ℚ) / 10

/-- `round(x, 2)` of `run_passes.py:92` and `run_passes.py:95`. -/
def round2 (q : ℚ) : ℚ := (roundHalfEven (q * 100) : ℚ) / 100

/-- `mb_from_mbps` (`run_passes.py:15-16`):
`(mbps * 1e6 / 8.0) * seconds * efficiency / 1e6`. -/
def mb_from_mbps (mbps seconds efficiency : ℚ) : ℚ :=
  (mbps * 1000000 / 8) * seconds * efficiency / 1000000

/-- One catalog row (`rows.append` at `run_passes.py:85-96`).  The two
ISO-string columns `aos_utc` / `los_utc` are modeled as the instants they
render. -/
structure Pass where
  satellite : String
  station : String
  mask_deg : ℚ
  aos_utc : ℚ
  los_utc : ℚ
  duration_s : ℚ
  max_elev_deg : ℚ
  downlink_mbps : ℚ
  efficiency : ℚ
  data_mb_est : ℚ
deriving DecidableEq, Repr

/-- The per-pair context of the scan loop: names, mask, link parameters,
minimum duration, and the external `altaz` elevation-sampling oracle
(`run_passes.py:80-81`), as a function from the culmination instant to
the altitude in degrees. -/
structure PairCfg where
  satellite : String
  station : String
  mask_deg : ℚ
  min_pass_duration_s : ℚ
  downlink_mbps : ℚ
  efficiency : ℚ
  elev_at : ℚ → ℚ

/-- The row built at `run_passes.py:85-96` from a matched triple at
instants `t1` (rise), `t2` (culmination), `t3` (set). -/
def mkPassRow (c : PairCfg) (t1 t2 t3 : ℚ) : Pass :=
  { satellite := c.satellite
    station := c.station
    mask_deg := c.mask_deg
    aos_utc := t1
    los_utc := t3
    duration_s := round1 (t3 - t1)
    max_elev_deg := round2 (c.elev_at t2)
    downlink_mbps := c.downlink_mbps
    efficiency := c.efficiency
    data_mb_est := round2 (mb_from_mbps c.downlink_mbps (t3 - t1) c.efficiency) }

/-- The event-scan loop of `compute_passes` (`run_passes.py:66-99`) in
recursive form: while at least 3 events remain, test the exact
rise/culmination/set pattern; on a match either discard (short pass) or
emit a row, consuming the triple; otherwise advance one event. -/
def scanPasses (c : PairCfg) : List Ev → List Pass
  | e1 :: e2 :: e3 :: rest =>
    if e1.2 = EventKind.rise ∧ e2.2 = EventKind.culminate ∧ e3.2 = EventKind.fall then
      if e3.1 - e1.1 < c.min_pass_duration_s then
        scanPasses c rest
      else
        mkPassRow c e1.1 e2.1 e3.1 :: scanPasses c rest
    else
      scanPasses c (e2 :: e3 :: rest)
  | _ => []
termination_by structural es => es

/-- The same while-loop (`run_passes.py:66-99`) embedded literally with
its integer cursor `i` and the loop guard `i < len(events) - 2`
(equivalently `i + 2 < len` over ℕ), plus an explicit fuel counter: one
unit of fuel is spent per loop iteration, and `none` means the fuel ran
out before the loop finished. -/
def scanIdxGo (c : PairCfg) (es : List Ev) : ℕ → ℕ → Option (List Pass)
  | 0, i => if i + 2 < es.length then none else some []
  | fuel + 1, i =>
    if h : i + 2 < es.length then
      if (es.get ⟨i, by omega⟩).2 = EventKind.rise ∧
          (es.get ⟨i + 1, by omega⟩).2 = EventKind.culminate ∧
          (es.get ⟨i + 2, by omega⟩).2 = EventKind.fall then
        if (es.get ⟨i + 2, by omega⟩).1 - (es.get ⟨i, by omega⟩).1 <
            c.min_pass_duration_s then
          scanIdxGo c es fuel (i + 3)
        else
          (scanIdxGo c es fuel (i + 3)).map
            (fun ps =>
              mkPassRow c (es.get ⟨i, by omega⟩).1 (es.get ⟨i + 1, by omega⟩).1
                (es.get ⟨i + 2, by omega⟩).1 :: ps)
      else
        scanIdxGo c es fuel (i + 1)
    else some []

/-- Modelled from the spec: the Event Stream Interpreter as §4.2 and §7
describe it, returning an `InvalidEventOrdering` error when a matched
triple has negative constructed duration instead of filtering it.  This
definition follows the spec's words and exists only to be compared with
`scanPasses`, the interpreter the code actually implements. -/
def scanPassesSpec (c : PairCfg) : List Ev → Except String (List Pass)
  | e1 :: e2 :: e3 :: rest =>
    if e1.2 = EventKind.rise ∧ e2.2 = EventKind.culminate ∧ e3.2 = EventKind.fall then
      if e3.1 - e1.1 < 0 then
        Except.error "InvalidEventOrdering"
      else if e3.1 - e1.1 < c.min_pass_duration_s then
        scanPassesSpec c rest
      else
        (scanPassesSpec c rest).map (fun ps => mkPassRow c e1.1 e2.1 e3.1 :: ps)
    else
      scanPassesSpec c (e2 :: e3 :: rest)
  | _ => Except.ok []
termination_by structural es => es

/-! ### Timestamp parsing (`parse_utc`, `run_passes.py:10-13`)

`datetime.fromisoformat` and the process-local timezone are external to
the repository; they are parameters of the embedding.  A `PyDateTime`
is a wall-clock reading in seconds together with its UTC offset
(`none` = naive datetime). -/

/-- A Python `datetime`: wall-clock seconds plus an optional UTC offset
(`none` models a naive datetime without `tzinfo`). -/
structure PyDateTime where
  naive_s : ℚ
  utcoffset : Option ℚ
deriving DecidableEq, Repr

/-- `dt.astimezone(timezone.utc)`: an aware datetime is converted to the
same instant at offset zero; a naive one is interpreted in the process's
local timezone (offset `localOffset`) and then converted. -/
def astimezoneUtc (localOffset : ℚ) (d : PyDateTime) : PyDateTime :=
  match d.utcoffset with
  | some o => { naive_s := d.naive_s - o, utcoffset := some 0 }
  | none => { naive_s := d.naive_s - localOffset, utcoffset := some 0 }

/-- Python text is modeled as its character sequence, so that the
source's `endswith`, slicing and `strip` operations are fully
computable in the embedding. -/
abbrev PyStr : Type := List Char

/-- The `Z`-suffix rewrite of `run_passes.py:11-12`:
`if ts.endswith("Z"): ts = ts[:-1] + "+00:00"`. -/
def zReplace (ts : PyStr) : PyStr :=
  if ts.getLast? = some 'Z' then ts.dropLast ++ "+00:00".toList else ts

/-- `parse_utc` (`run_passes.py:10-13`), parameterized by the stdlib
parser `fromiso` (`datetime.fromisoformat`; `none` models the
`ValueError` raised on text that is not a valid date-time) and by the
process-local UTC offset used by `astimezone` on naive input. -/
def parse_utc (fromiso : PyStr → Option PyDateTime) (localOffset : ℚ)
    (ts : PyStr) : Option PyDateTime :=
  (fromiso (zReplace ts)).map (astimezoneUtc localOffset)

/-! ### Satellite resolution (`make_satellite`, `run_passes.py:22-40`),
`tle_url` branch: the TLE source's result is the list parameter. -/

/-- Python's `str.strip()`: remove leading and trailing whitespace. -/
def pyStrip (s : PyStr) : PyStr :=
  ((s.dropWhile Char.isWhitespace).reverse.dropWhile Char.isWhitespace).reverse

/-- A named entity returned by the TLE source. -/
structure TleSat where
  name : PyStr
deriving DecidableEq, Repr

/-- The `tle_url` branch of `make_satellite` (`run_passes.py:24-37`):
empty source raises; a single entity is renamed to the configured name
(when one is configured) and returned; among several entities the first
whose stripped name equals the stripped configured name is returned,
and if none matches, the first entity is returned. -/
def make_satellite (cfgName : Option PyStr) (sats : List TleSat) :
    Except PyStr TleSat :=
  match sats with
  | [] => Except.error "No satellites returned from tle_url".toList
  | [s] => Except.ok { name := cfgName.getD s.name }
  | s0 :: s1 :: rest =>
    match (s0 :: s1 :: rest).find?
        (fun s => pyStrip s.name == pyStrip (cfgName.getD [])) with
    | some s => Except.ok s
    | none => Except.ok s0

/-! ### Aggregation (`make_outputs`, `run_passes.py:115-126`)

`compute_passes` derives `date_utc` from the `aos_utc` instant
(`run_passes.py:105-106`); on the rational timeline the UTC date is the
day number `⌊aos / 86400⌋`.  The two `groupby(...).agg(...)` calls are
embedded as folds over the catalog that upsert into an association
list keyed the way pandas keys the groups. -/

/-- The first-level grouping key of `run_passes.py:115`:
`(date_utc, satellite, station)`. -/
def passKey (p : Pass) : ℤ × String × String :=
  (⌊p.aos_utc / 86400⌋, p.satellite, p.station)

/-- One summary row's measures: `total_contact_s`, `total_data_mb`,
`passes` (`run_passes.py:116-118`). -/
structure Agg where
  total_contact_s : ℚ
  total_data_mb : ℚ
  passes : ℕ
deriving DecidableEq, Repr

/-- Pointwise sum of two summary rows. -/
def addAgg (a b : Agg) : Agg :=
  { total_contact_s := a.total_contact_s + b.total_contact_s
    total_data_mb := a.total_data_mb + b.total_data_mb
    passes := a.passes + b.passes }

/-- The measures a single catalog row contributes to its group:
its `duration_s`, its `data_mb_est`, and a count of 1. -/
def passAgg (p : Pass) : Agg :=
  { total_contact_s := p.duration_s, total_data_mb := p.data_mb_est, passes := 1 }

/-- Add a value into an association list at key `k`: combine with the
existing entry, or append a fresh entry at the end. -/
def upsert {κ : Type} [DecidableEq κ] (k : κ) (v : Agg) :
    List (κ × Agg) → List (κ × Agg)
  | [] => [(k, v)]
  | (k', a) :: rest =>
    if k' = k then (k', addAgg a v) :: rest else (k', a) :: upsert k v rest

/-- The first-level `groupby(["date_utc", "satellite", "station"])`
aggregation of `run_passes.py:115-118`, as a fold over the catalog. -/
def dailySummary (catalog : List Pass) : List ((ℤ × String × String) × Agg) :=
  catalog.foldl (fun acc p => upsert (passKey p) (passAgg p) acc) []

/-- The second-level `groupby("date_utc")` rollup of
`run_passes.py:123-126`, summing the first-level measures by date. -/
def dailyTotal (daily : List ((ℤ × String × String) × Agg)) : List (ℤ × Agg) :=
  daily.foldl (fun acc g => upsert g.1.1 g.2 acc) []

/-- Association-list lookup with decidable key equality (first match). -/
def lookupKey {κ : Type} [DecidableEq κ] (k : κ) : List (κ × Agg) → Option Agg
  | [] => none
  | (k', a) :: rest => if k' = k then some a else lookupKey k rest

/-- The exact measures of the catalog rows whose key is `k`: sum of
durations, sum of data estimates, row count. -/
def aggOf (catalog : List Pass) (k : ℤ × String × String) : Agg :=
  { total_contact_s := ((catalog.filter (fun p => passKey p = k)).map Pass.duration_s).sum
    total_data_mb := ((catalog.filter (fun p => passKey p = k)).map Pass.data_mb_est).sum
    passes := (catalog.filter (fun p => passKey p = k)).length }

/-- Fold a list's contributions into one summary row (the algebraic form
of pandas' columnwise `sum`/`count` aggregation). -/
def sumAggOf {α : Type} (g : α → Agg) (xs : List α) : Agg :=
  xs.foldr (fun x acc => addAgg (g x) acc) { total_contact_s := 0, total_data_mb := 0, passes := 0 }

/-- A concrete catalog row used in closed witnesses: the Pass of the
end-to-end example stream. -/
def pass0 : Pass :=
  { satellite := "SAT-1", station := "GS-A", mask_deg := 10, aos_utc := 0,
    los_utc := 600, duration_s := 600, max_elev_deg := 45,
    downlink_mbps := 10, efficiency := 8/10, data_mb_est := 600 }

/-- A tiny smoke-test configuration used in closed witnesses. -/
def cfg0 (minDur : ℚ) : PairCfg :=
  { satellite := "SAT-1"
    station := "GS-A"
    mask_deg := 10
    min_pass_duration_s := minDur
    downlink_mbps := 10
    efficiency := 8/10
    elev_at := fun _ => 45 }

/-! ## Basic lemmas about the scan -/

/-- Unfolding of the scan loop when at least three events remain. -/
theorem scanPasses_cons3 (c : PairCfg) (e1 e2 e3 : Ev) (rest : List Ev) :
    scanPasses c (e1 :: e2 :: e3 :: rest) =
      if e1.2 = EventKind.rise ∧ e2.2 = EventKind.culminate ∧ e3.2 = EventKind.fall then
        if e3.1 - e1.1 < c.min_pass_duration_s then
          scanPasses c rest
        else
          mkPassRow c e1.1 e2.1 e3.1 :: scanPasses c rest
      else
        scanPasses c (e2 :: e3 :: rest) := by
  rfl

/-- The loop guard `i < len(events) - 2`: with fewer than three events the
loop body never runs and no pass is emitted. -/
theorem scanPasses_of_length_le_two (c : PairCfg) (es : List Ev)
    (h : es.length ≤ 2) : scanPasses c es = [] := by
  match es with
  | [] => rfl
  | [_] => rfl
  | [_, _] => rfl
  | _ :: _ :: _ :: _ => simp at h

/-- Every emitted row is a `mkPassRow` over a matched triple that cleared
the duration filter. -/
theorem scanPasses_mem (c : PairCfg) (es : List Ev) (p : Pass)
    (hp : p ∈ scanPasses c es) :
    ∃ t1 t2 t3 : ℚ, p = mkPassRow c t1 t2 t3 ∧
      ¬ t3 - t1 < c.min_pass_duration_s := by
  induction es using scanPasses.induct c with
  | case1 e1 e2 e3 rest hk hd ih =>
    rw [scanPasses_cons3, if_pos hk, if_pos hd] at hp
    exact ih hp
  | case2 e1 e2 e3 rest hk hd ih =>
    rw [scanPasses_cons3, if_pos hk, if_neg hd] at hp
    rcases List.mem_cons.mp hp with h | h
    · exact ⟨e1.1, e2.1, e3.1, h, hd⟩
    · exact ih h
  | case3 e1 e2 e3 rest hk ih =>
    rw [scanPasses_cons3, if_neg hk] at hp
    exact ih hp
  | case4 es h1 =>
    have hlen : es.length ≤ 2 := by
      match es, h1 with
      | [], _ => simp
      | [_], _ => simp
      | [_, _], _ => simp
      | e1 :: e2 :: e3 :: rest, h1 => exact absurd rfl (h1 e1 e2 e3 rest)
    rw [scanPasses_of_length_le_two c es hlen] at hp
    simp at hp

/-! ## Rounding bounds -/

/-- The half-to-even rounding is within 1/2 of its argument (lower side). -/
theorem roundHalfEven_ge (q : ℚ) : q - 1/2 ≤ (roundHalfEven q : ℚ) := by
  unfold roundHalfEven
  have hfl : (⌊q⌋ : ℚ) ≤ q := Int.floor_le q
  have hfr : q - 1 < (⌊q⌋ : ℚ) := Int.sub_one_lt_floor q
  split
  · linarith
  · split
    · push_cast
      linarith
    · split
      · linarith
      · push_cast
        linarith

/-- The half-to-even rounding is within 1/2 of its argument (upper side). -/
theorem roundHalfEven_le (q : ℚ) : (roundHalfEven q : ℚ) ≤ q + 1/2 := by
  unfold roundHalfEven
  have hfl : (⌊q⌋ : ℚ) ≤ q := Int.floor_le q
  split
  · linarith
  · split
    · push_cast
      linarith
    · split
      · linarith
      · push_cast
        linarith

/-- `round(x, 1)` is at most 1/20 below its argument. -/
theorem round1_ge (q : ℚ) : q - 1/20 ≤ round1 q := by
  have h := roundHalfEven_ge (q * 10)
  unfold round1
  linarith

/-! ## Claim theorems -/

/-- Claim C1, counterexample.  On the triple `[(10, rise), (5, culmination),
(0, set)]` — constructed duration `0 - 10 = -10 < 0` — the spec-modelled
interpreter raises `InvalidEventOrdering`, but `compute_passes` silently
discards the triple through the minimum-duration filter and returns an
empty catalog: the code never raises on negative durations. -/
theorem C1_counterexample :
    scanPassesSpec (cfg0 0) [(10, .rise), (5, .culminate), (0, .fall)] =
      Except.error "InvalidEventOrdering" ∧
    scanPasses (cfg0 0) [(10, .rise), (5, .culminate), (0, .fall)] = [] := by
  constructor
  · norm_num [scanPassesSpec, cfg0]
  · norm_num [scanPasses, cfg0]

/-- Claim C1, amended.  A matched rise/culmination/set triple whose
constructed duration is negative is silently discarded by the
minimum-duration filter (for any configured minimum ≥ 0), the cursor
advancing past the whole triple; the interpreter is a total function and
never raises, for this or any other malformed sequence. -/
theorem C1_amended (c : PairCfg) (t1 t2 t3 : ℚ) (rest : List Ev)
    (hmin : 0 ≤ c.min_pass_duration_s) (hneg : t3 - t1 < 0) :
    scanPasses c ((t1, .rise) :: (t2, .culminate) :: (t3, .fall) :: rest) =
      scanPasses c rest := by
  rw [scanPasses_cons3, if_pos ⟨rfl, rfl, rfl⟩, if_pos (by linarith)]

/-- Witness for C1: the amended statement at the concrete negative-duration
triple. -/
theorem C1_witness :
    scanPasses (cfg0 0) [(10, .rise), (5, .culminate), (0, .fall)] =
      scanPasses (cfg0 0) [] :=
  C1_amended (cfg0 0) 10 5 0 [] (by norm_num [cfg0]) (by norm_num)

/-- Claim C2, counterexample.  With `min_pass_duration_s = 0.64` the triple
`[(0, rise), (0.3, culmination), (0.64, set)]` has unrounded duration
exactly 0.64, clears the filter (`run_passes.py:76` compares the
unrounded value), and is emitted — but the catalog stores
`round(dur_s, 1) = 0.6` (`run_passes.py:91`), which is strictly below
the configured minimum. -/
theorem C2_counterexample :
    scanPasses (cfg0 (16/25)) [(0, .rise), (3/10, .culminate), (16/25, .fall)] =
      [{ satellite := "SAT-1", station := "GS-A", mask_deg := 10, aos_utc := 0,
         los_utc := 16/25, duration_s := 3/5, max_elev_deg := 45,
         downlink_mbps := 10, efficiency := 8/10, data_mb_est := 16/25 }] ∧
    (3/5 : ℚ) < 16/25 := by
  constructor
  · norm_num [scanPasses, mkPassRow, cfg0, round1, round2, roundHalfEven,
      mb_from_mbps]
  · norm_num

/-- Claim C2, amended.  Every Pass in the catalog has unrounded duration
`los − aos` at least the configured minimum; its stored `duration_s`
field is that value rounded half-to-even to one decimal, hence at least
`minDuration − 0.05`; and a matched triple discarded as too short
advances the cursor by 3, so the consumed triple is never re-scanned. -/
theorem C2_amended :
    (∀ (c : PairCfg) (es : List Ev) (p : Pass), p ∈ scanPasses c es →
        c.min_pass_duration_s ≤ p.los_utc - p.aos_utc ∧
        p.duration_s = round1 (p.los_utc - p.aos_utc) ∧
        c.min_pass_duration_s - 1/20 ≤ p.duration_s) ∧
    (∀ (c : PairCfg) (e1 e2 e3 : Ev) (rest : List Ev),
        e1.2 = EventKind.rise ∧ e2.2 = EventKind.culminate ∧
          e3.2 = EventKind.fall →
        e3.1 - e1.1 < c.min_pass_duration_s →
        scanPasses c (e1 :: e2 :: e3 :: rest) = scanPasses c rest) := by
  constructor
  · intro c es p hp
    obtain ⟨t1, t2, t3, hrow, hd⟩ := scanPasses_mem c es p hp
    have haos : p.aos_utc = t1 := by rw [hrow]; rfl
    have hlos : p.los_utc = t3 := by rw [hrow]; rfl
    have hdur : p.duration_s = round1 (t3 - t1) := by rw [hrow]; rfl
    have hge : c.min_pass_duration_s ≤ t3 - t1 := not_lt.mp hd
    refine ⟨by rw [haos, hlos]; exact hge, by rw [haos, hlos, hdur], ?_⟩
    have := round1_ge (t3 - t1)
    rw [hdur]
    linarith
  · intro c e1 e2 e3 rest hk hd
    rw [scanPasses_cons3, if_pos hk, if_pos hd]

/-- Witness for C2: the amended bounds at the single pass of the
end-to-end example stream. -/
theorem C2_witness :
    (cfg0 0).min_pass_duration_s ≤ (600 : ℚ) - 0 ∧
    (600 : ℚ) = round1 (600 - 0) ∧
    (cfg0 0).min_pass_duration_s - 1/20 ≤ (600 : ℚ) := by
  have h := C2_amended.1 (cfg0 0) [(0, .rise), (300, .culminate), (600, .fall)]
      { satellite := "SAT-1", station := "GS-A", mask_deg := 10, aos_utc := 0,
        los_utc := 600, duration_s := 600, max_elev_deg := 45,
        downlink_mbps := 10, efficiency := 8/10, data_mb_est := 600 }
      (by norm_num [scanPasses, mkPassRow, cfg0, round1, round2, roundHalfEven,
        mb_from_mbps])
  simpa using h

/-- Claim C3: a non-matching three-event window advances the cursor by one
event only, and in particular the anomalous stream
`[rise, rise, culmination, set]` (minimum duration 0, non-negative span)
yields exactly one Pass, built from the second rise, the culmination and
the set. -/
theorem C3_resynchronization :
    (∀ (c : PairCfg) (e1 e2 e3 : Ev) (rest : List Ev),
        ¬(e1.2 = EventKind.rise ∧ e2.2 = EventKind.culminate ∧
          e3.2 = EventKind.fall) →
        scanPasses c (e1 :: e2 :: e3 :: rest) = scanPasses c (e2 :: e3 :: rest)) ∧
    (∀ (c : PairCfg) (t1 t2 t3 t4 : ℚ), c.min_pass_duration_s = 0 → t2 ≤ t4 →
        scanPasses c [(t1, .rise), (t2, .rise), (t3, .culminate), (t4, .fall)] =
          [mkPassRow c t2 t3 t4]) := by
  constructor
  · intro c e1 e2 e3 rest hk
    rw [scanPasses_cons3, if_neg hk]
  · intro c t1 t2 t3 t4 hmin hspan
    rw [scanPasses_cons3, if_neg (by simp)]
    rw [scanPasses_cons3, if_pos ⟨rfl, rfl, rfl⟩,
      if_neg (by rw [hmin]; simp; linarith)]
    rfl

/-- Witness for C3: both conjuncts at concrete inputs — a double-rise
window steps by one, and the four-event anomalous stream yields the one
Pass from the second rise. -/
theorem C3_witness :
    scanPasses (cfg0 0)
        [(0, .rise), (1, .rise), (2, .culminate), (3, .fall)] =
      scanPasses (cfg0 0) [(1, .rise), (2, .culminate), (3, .fall)] ∧
    scanPasses (cfg0 0)
        [(0, .rise), (1, .rise), (2, .culminate), (3, .fall)] =
      [mkPassRow (cfg0 0) 1 2 3] :=
  ⟨C3_resynchronization.1 (cfg0 0) (0, .rise) (1, .rise) (2, .culminate)
      [(3, .fall)] (by simp),
    C3_resynchronization.2 (cfg0 0) 0 1 2 3 (by norm_num [cfg0]) (by norm_num)⟩

/-- Claim C4: the data-volume estimate is
`rateMbps * 1e6 / 8 * durationSeconds * efficiency / 1e6` megabytes with
no clamping, and the single-pass stream
`[(t0, rise), (t0+300, culmination), (t0+600, set)]` with rate 10 Mbps,
efficiency 0.8 and minimum duration 0 yields exactly one Pass with
`duration_s = 600` and `data_mb_est = 600`. -/
theorem C4_data_volume (mbps s eff t0 mask : ℚ) (elev : ℚ → ℚ)
    (sat st : String) :
    mb_from_mbps mbps s eff = mbps * 1000000 / 8 * s * eff / 1000000 ∧
    scanPasses ⟨sat, st, mask, 0, 10, 8/10, elev⟩
        [(t0, .rise), (t0 + 300, .culminate), (t0 + 600, .fall)] =
      [{ satellite := sat, station := st, mask_deg := mask, aos_utc := t0,
         los_utc := t0 + 600, duration_s := 600,
         max_elev_deg := round2 (elev (t0 + 300)), downlink_mbps := 10,
         efficiency := 8/10, data_mb_est := 600 }] := by
  refine ⟨rfl, ?_⟩
  have h600 : t0 + 600 - t0 = (600 : ℚ) := by ring
  rw [scanPasses_cons3, if_pos ⟨rfl, rfl, rfl⟩]
  simp only [h600]
  rw [if_neg (by norm_num)]
  simp only [mkPassRow, h600]
  norm_num [round1, round2, roundHalfEven, mb_from_mbps, scanPasses]

/-- Claim C7: the scan stops when fewer than three events remain ahead of
the cursor — sequences of length 0, 1 or 2 yield no Pass — and a
trailing incomplete fragment (here a final unmatched rise after a
complete triple) produces no Pass. -/
theorem C7_termination_boundary (c : PairCfg) :
    (∀ es : List Ev, es.length < 3 → scanPasses c es = []) ∧
    (∀ t1 t2 t3 t4 : ℚ, ¬ t3 - t1 < c.min_pass_duration_s →
        scanPasses c [(t1, .rise), (t2, .culminate), (t3, .fall), (t4, .rise)] =
          [mkPassRow c t1 t2 t3]) := by
  constructor
  · intro es h
    exact scanPasses_of_length_le_two c es (by omega)
  · intro t1 t2 t3 t4 hd
    rw [scanPasses_cons3, if_pos ⟨rfl, rfl, rfl⟩, if_neg hd]
    rfl

/-- Witness for C7: a lone trailing rise yields no Pass, and a complete
triple followed by a trailing rise yields exactly the one Pass. -/
theorem C7_witness :
    scanPasses (cfg0 0) [(0, .rise)] = [] ∧
    scanPasses (cfg0 0) [(0, .rise), (300, .culminate), (600, .fall), (700, .rise)] =
      [mkPassRow (cfg0 0) 0 300 600] :=
  ⟨(C7_termination_boundary (cfg0 0)).1 [(0, .rise)] (by simp),
    (C7_termination_boundary (cfg0 0)).2 0 300 600 700 (by norm_num [cfg0])⟩

/-- Claim C6: `parse_utc` rewrites a trailing literal "Z" to the `+00:00`
offset before handing the text to the ISO-8601 parser; it fails exactly
when the (rewritten) text is not a valid date-time; and every successful
result carries UTC offset zero, whatever the input's zone or absence of
one. -/
theorem C6_parse_utc (fromiso : PyStr → Option PyDateTime) (localOffset : ℚ)
    (ts : PyStr) :
    (ts.getLast? = some 'Z' →
      parse_utc fromiso localOffset ts =
        (fromiso (ts.dropLast ++ "+00:00".toList)).map
          (astimezoneUtc localOffset)) ∧
    (parse_utc fromiso localOffset ts = none ↔ fromiso (zReplace ts) = none) ∧
    (∀ d, parse_utc fromiso localOffset ts = some d → d.utcoffset = some 0) := by
  refine ⟨?_, ?_, ?_⟩
  · intro hz
    unfold parse_utc zReplace
    rw [if_pos hz]
  · unfold parse_utc
    exact Option.map_eq_none
  · intro d hd
    unfold parse_utc at hd
    obtain ⟨d0, _, hmap⟩ := Option.map_eq_some.mp hd
    rw [← hmap]
    unfold astimezoneUtc
    cases d0.utcoffset <;> rfl

/-- Witness for C6: a concrete parser oracle on a Z-suffixed timestamp —
the Z branch fires, and the result is at offset zero even though the
oracle returned a naive datetime and the local offset is nonzero. -/
theorem C6_witness :
    parse_utc (fun _ => some { naive_s := 100, utcoffset := none }) 7
        "2024-01-02T03:04:05Z".toList =
      (((fun (_ : PyStr) => some { naive_s := 100, utcoffset := none })
          ("2024-01-02T03:04:05Z".toList.dropLast ++ "+00:00".toList)).map
        (astimezoneUtc 7)) ∧
    PyDateTime.utcoffset { naive_s := 93, utcoffset := some 0 } = some 0 := by
  constructor
  · exact (C6_parse_utc (fun _ => some { naive_s := 100, utcoffset := none }) 7
      "2024-01-02T03:04:05Z".toList).1 (by decide)
  · exact (C6_parse_utc (fun _ => some { naive_s := 100, utcoffset := none }) 7
      "2024-01-02T03:04:05Z".toList).2.2 { naive_s := 93, utcoffset := some 0 }
      (by
        unfold parse_utc zReplace astimezoneUtc
        norm_num)

/-- Claim C8: the `tle_url` branch of `make_satellite` never fails on a
multi-entry source without an exact (stripped) name match — it falls
back to the first entity; a single-entity source is used after renaming
to the configured name; and an exact match is preferred whenever one
exists. -/
theorem C8_satellite_resolution :
    (∀ (cfgName : Option PyStr) (s0 s1 : TleSat) (rest : List TleSat),
        (∀ s ∈ s0 :: s1 :: rest, pyStrip s.name ≠ pyStrip (cfgName.getD [])) →
        make_satellite cfgName (s0 :: s1 :: rest) = Except.ok s0) ∧
    (∀ (nm : PyStr) (s : TleSat),
        make_satellite (some nm) [s] = Except.ok { name := nm }) ∧
    (∀ (cfgName : Option PyStr) (s0 s1 : TleSat) (rest : List TleSat)
        (s' : TleSat), s' ∈ s0 :: s1 :: rest →
        pyStrip s'.name = pyStrip (cfgName.getD []) →
        ∃ s, make_satellite cfgName (s0 :: s1 :: rest) = Except.ok s ∧
          pyStrip s.name = pyStrip (cfgName.getD [])) := by
  refine ⟨?_, ?_, ?_⟩
  · intro cfgName s0 s1 rest hnone
    have hfind : (s0 :: s1 :: rest).find?
        (fun s => pyStrip s.name == pyStrip (cfgName.getD [])) = none := by
      rw [List.find?_eq_none]
      intro s hs
      simpa using hnone s hs
    simp only [make_satellite, hfind]
  · intro nm s
    rfl
  · intro cfgName s0 s1 rest s' hmem heq
    have hsome : ((s0 :: s1 :: rest).find?
        (fun s => pyStrip s.name == pyStrip (cfgName.getD []))).isSome := by
      rw [List.find?_isSome]
      exact ⟨s', hmem, by simpa using heq⟩
    obtain ⟨s, hs⟩ := Option.isSome_iff_exists.mp hsome
    refine ⟨s, ?_, by simpa using List.find?_some hs⟩
    simp only [make_satellite, hs]

/-- Witness for C8: concrete sources — a two-entry source with no match
falls back to its first entry, a one-entry source is renamed, and a
two-entry source with a match resolves to a matching entity. -/
theorem C8_witness :
    make_satellite (some "ISS".toList)
        [⟨"NOAA 15".toList⟩, ⟨"NOAA 18".toList⟩] =
      Except.ok ⟨"NOAA 15".toList⟩ ∧
    make_satellite (some "ISS".toList) [⟨"ISS (ZARYA)".toList⟩] =
      Except.ok ⟨"ISS".toList⟩ ∧
    ∃ s, make_satellite (some "NOAA 18".toList)
        [⟨"NOAA 15".toList⟩, ⟨"NOAA 18".toList⟩] = Except.ok s ∧
      pyStrip s.name = pyStrip ((some "NOAA 18".toList).getD []) := by
  refine ⟨?_, ?_, ?_⟩
  · exact C8_satellite_resolution.1 (some "ISS".toList) ⟨"NOAA 15".toList⟩
      ⟨"NOAA 18".toList⟩ []
      (by intro s hs; fin_cases hs <;> decide)
  · exact C8_satellite_resolution.2.1 "ISS".toList ⟨"ISS (ZARYA)".toList⟩
  · exact C8_satellite_resolution.2.2 (some "NOAA 18".toList)
      ⟨"NOAA 15".toList⟩ ⟨"NOAA 18".toList⟩ [] ⟨"NOAA 18".toList⟩
      (by simp) (by decide)

/-- With enough fuel — the cursor bound `len(events)` suffices, since every
iteration advances the cursor by at least 1 — the literal while-loop
agrees with the recursive interpreter from any cursor position. -/
theorem scanIdxGo_eq (c : PairCfg) (es : List Ev) :
    ∀ fuel i : ℕ, es.length ≤ i + fuel →
      scanIdxGo c es fuel i = some (scanPasses c (es.drop i)) := by
  intro fuel
  induction fuel with
  | zero =>
    intro i h
    unfold scanIdxGo
    rw [if_neg (by omega), List.drop_eq_nil_of_le (by omega)]
    rfl
  | succ fuel ih =>
    intro i h
    unfold scanIdxGo
    by_cases hlt : i + 2 < es.length
    · rw [dif_pos hlt]
      have hd3 : es.drop i =
          es.get ⟨i, by omega⟩ :: es.get ⟨i + 1, by omega⟩ ::
            es.get ⟨i + 2, by omega⟩ :: es.drop (i + 3) := by
        simp only [List.get_eq_getElem]
        rw [List.drop_eq_getElem_cons (by omega : i < es.length),
          List.drop_eq_getElem_cons (by omega : i + 1 < es.length),
          List.drop_eq_getElem_cons (by omega : i + 2 < es.length)]
      rw [hd3, scanPasses_cons3]
      by_cases hk : (es.get ⟨i, by omega⟩).2 = EventKind.rise ∧
          (es.get ⟨i + 1, by omega⟩).2 = EventKind.culminate ∧
          (es.get ⟨i + 2, by omega⟩).2 = EventKind.fall
      · rw [if_pos hk, if_pos hk]
        by_cases hdur : (es.get ⟨i + 2, by omega⟩).1 - (es.get ⟨i, by omega⟩).1 <
            c.min_pass_duration_s
        · rw [if_pos hdur, if_pos hdur]
          exact ih (i + 3) (by omega)
        · rw [if_neg hdur, if_neg hdur, ih (i + 3) (by omega)]
          rfl
      · rw [if_neg hk, if_neg hk, ih (i + 1) (by omega)]
        have hd2 : es.drop (i + 1) =
            es.get ⟨i + 1, by omega⟩ :: es.get ⟨i + 2, by omega⟩ ::
              es.drop (i + 3) := by
          simp only [List.get_eq_getElem]
          rw [List.drop_eq_getElem_cons (by omega : i + 1 < es.length),
            List.drop_eq_getElem_cons (by omega : i + 2 < es.length)]
        rw [hd2]
    · rw [dif_neg hlt,
        scanPasses_of_length_le_two c _ (by rw [List.length_drop]; omega)]

/-- Claim C9 (implicit): the event-scan loop terminates on every finite
event sequence — with fuel equal to the sequence length (the loop
guard's cursor bound) the literal index-based while-loop completes
without exhausting its fuel and computes exactly the interpreter's
output, since each iteration strictly increases the cursor (by 3 on a
matched or filtered triple, by 1 otherwise). -/
theorem C9_loop_terminates (c : PairCfg) (es : List Ev) :
    scanIdxGo c es es.length 0 = some (scanPasses c es) := by
  have h := scanIdxGo_eq c es es.length 0 (by omega)
  simpa using h

/-! ## Aggregation lemmas -/

theorem addAgg_assoc (a b c : Agg) :
    addAgg (addAgg a b) c = addAgg a (addAgg b c) := by
  simp [addAgg, add_assoc]

theorem addAgg_zero (a : Agg) :
    addAgg a { total_contact_s := 0, total_data_mb := 0, passes := 0 } = a := by
  simp [addAgg]

theorem sumAggOf_cons {α : Type} (g : α → Agg) (x : α) (xs : List α) :
    sumAggOf g (x :: xs) = addAgg (g x) (sumAggOf g xs) := rfl

/-- Looking up after an upsert: the upserted key now carries its old value
plus the new contribution (or just the contribution if it was absent);
other keys are untouched. -/
theorem lookupKey_upsert {κ : Type} [DecidableEq κ] (k k0 : κ) (v : Agg)
    (acc : List (κ × Agg)) :
    lookupKey k (upsert k0 v acc) =
      if k0 = k then
        match lookupKey k acc with
        | none => some v
        | some a => some (addAgg a v)
      else lookupKey k acc := by
  induction acc with
  | nil =>
    by_cases h : k0 = k <;> simp [upsert, lookupKey, h]
  | cons hd tl ih =>
    obtain ⟨k', a⟩ := hd
    by_cases h1 : k' = k0
    · subst h1
      by_cases h2 : k' = k <;> simp [upsert, lookupKey, h2]
    · by_cases h2 : k' = k
      · subst h2
        have hk0 : ¬ k0 = k' := fun h => h1 h.symm
        simp [upsert, lookupKey, h1, hk0]
      · simp only [upsert, if_neg h1, lookupKey, if_neg h2]
        exact ih

/-- The key list after an upsert: unchanged if the key was present,
otherwise extended by the key at the end. -/
theorem map_fst_upsert {κ : Type} [DecidableEq κ] (k0 : κ) (v : Agg)
    (acc : List (κ × Agg)) :
    (upsert k0 v acc).map Prod.fst =
      if k0 ∈ acc.map Prod.fst then acc.map Prod.fst
      else acc.map Prod.fst ++ [k0] := by
  induction acc with
  | nil => simp [upsert]
  | cons hd tl ih =>
    obtain ⟨k', a⟩ := hd
    by_cases h1 : k' = k0
    · subst h1
      simp [upsert]
    · simp only [upsert, if_neg h1, List.map_cons, ih]
      have hk0 : ¬ k0 = k' := fun h => h1 h.symm
      by_cases h2 : k0 ∈ tl.map Prod.fst
      · rw [if_pos h2, if_pos (by simp [h2])]
      · rw [if_neg h2, if_neg (by simp [h2, hk0]), List.cons_append]

theorem nodup_map_fst_upsert {κ : Type} [DecidableEq κ] (k0 : κ) (v : Agg)
    (acc : List (κ × Agg)) (hn : (acc.map Prod.fst).Nodup) :
    ((upsert k0 v acc).map Prod.fst).Nodup := by
  rw [map_fst_upsert]
  by_cases h : k0 ∈ acc.map Prod.fst
  · rwa [if_pos h]
  · rw [if_neg h]
    simp [List.nodup_append, hn, h]

/-- Folding upserts keeps the key list duplicate-free. -/
theorem upsertFold_nodup {κ α : Type} [DecidableEq κ] (f : α → κ) (g : α → Agg) :
    ∀ (xs : List α) (acc : List (κ × Agg)), (acc.map Prod.fst).Nodup →
      ((xs.foldl (fun a x => upsert (f x) (g x) a) acc).map Prod.fst).Nodup := by
  intro xs
  induction xs with
  | nil => intro acc hn; exact hn
  | cons x xs ih =>
    intro acc hn
    exact ih (upsert (f x) (g x) acc) (nodup_map_fst_upsert (f x) (g x) acc hn)

theorem mem_map_fst_upsert {κ : Type} [DecidableEq κ] (k k0 : κ) (v : Agg)
    (acc : List (κ × Agg)) :
    k ∈ (upsert k0 v acc).map Prod.fst ↔ k = k0 ∨ k ∈ acc.map Prod.fst := by
  rw [map_fst_upsert]
  by_cases h : k0 ∈ acc.map Prod.fst
  · rw [if_pos h]
    constructor
    · exact Or.inr
    · rintro (rfl | hk)
      · exact h
      · exact hk
  · rw [if_neg h]
    simp [or_comm]

/-- A key appears among the folded groups iff it was already present or
some element of the list maps to it. -/
theorem upsertFold_mem {κ α : Type} [DecidableEq κ] (f : α → κ) (g : α → Agg) :
    ∀ (xs : List α) (acc : List (κ × Agg)) (k : κ),
      k ∈ ((xs.foldl (fun a x => upsert (f x) (g x) a) acc).map Prod.fst) ↔
        k ∈ acc.map Prod.fst ∨ ∃ x ∈ xs, f x = k := by
  intro xs
  induction xs with
  | nil => intro acc k; simp
  | cons x xs ih =>
    intro acc k
    rw [List.foldl_cons, ih, mem_map_fst_upsert]
    simp only [List.mem_cons]
    constructor
    · rintro ((rfl | hk) | ⟨x', hx', rfl⟩)
      · exact Or.inr ⟨x, Or.inl rfl, rfl⟩
      · exact Or.inl hk
      · exact Or.inr ⟨x', Or.inr hx', rfl⟩
    · rintro (hk | ⟨x', (rfl | hx'), rfl⟩)
      · exact Or.inl (Or.inr hk)
      · exact Or.inl (Or.inl rfl)
      · exact Or.inr ⟨x', hx', rfl⟩

/-- The central fold invariant: after folding a list into an accumulator,
each key's entry equals its old value plus the summed contributions of
the matching list elements (and exists exactly when the key was present
or some element matches). -/
theorem upsertFold_lookup {κ α : Type} [DecidableEq κ] (f : α → κ) (g : α → Agg) :
    ∀ (xs : List α) (acc : List (κ × Agg)) (k : κ),
      lookupKey k (xs.foldl (fun a x => upsert (f x) (g x) a) acc) =
        match lookupKey k acc with
        | some a => some (addAgg a (sumAggOf g (xs.filter (fun x => f x = k))))
        | none =>
          if ∃ x ∈ xs, f x = k then
            some (sumAggOf g (xs.filter (fun x => f x = k)))
          else none := by
  intro xs
  induction xs with
  | nil =>
    intro acc k
    cases h : lookupKey k acc <;> simp [h, sumAggOf, addAgg_zero]
  | cons x xs ih =>
    intro acc k
    rw [List.foldl_cons, ih, lookupKey_upsert]
    by_cases hfx : f x = k
    · rw [if_pos hfx, List.filter_cons_of_pos (by simpa using hfx), sumAggOf_cons]
      cases h : lookupKey k acc with
      | some a =>
        simp only [h, addAgg_assoc]
      | none =>
        simp only [h]
        rw [if_pos ⟨x, List.mem_cons_self x xs, hfx⟩]
    · rw [if_neg hfx, List.filter_cons_of_neg (by simpa using hfx)]
      cases h : lookupKey k acc with
      | some a => simp only [h]
      | none =>
        simp only [h]
        by_cases hex : ∃ x' ∈ xs, f x' = k
        · have hex' : ∃ x' ∈ x :: xs, f x' = k := by
            obtain ⟨x', hx', hk⟩ := hex
            exact ⟨x', List.mem_cons_of_mem x hx', hk⟩
          rw [if_pos hex, if_pos hex']
        · have hex' : ¬ ∃ x' ∈ x :: xs, f x' = k := by
            rintro ⟨x', hx', hk⟩
            rcases List.mem_cons.mp hx' with rfl | hx''
            · exact hfx hk
            · exact hex ⟨x', hx'', hk⟩
          rw [if_neg hex, if_neg hex']

/-- Summing per-pass contributions over a list of rows gives exactly the
sums and the count of the rows. -/
theorem sumAggOf_passAgg (l : List Pass) :
    sumAggOf passAgg l =
      { total_contact_s := (l.map Pass.duration_s).sum
        total_data_mb := (l.map Pass.data_mb_est).sum
        passes := l.length } := by
  induction l with
  | nil => rfl
  | cons p l ih => simp [sumAggOf_cons, ih, addAgg, passAgg, Nat.add_comm]

theorem lookupKey_eq_none_iff {κ : Type} [DecidableEq κ] (k : κ)
    (l : List (κ × Agg)) :
    lookupKey k l = none ↔ k ∉ l.map Prod.fst := by
  induction l with
  | nil => simp [lookupKey]
  | cons hd tl ih =>
    obtain ⟨k', a⟩ := hd
    by_cases h : k' = k
    · subst h
      simp [lookupKey]
    · simp only [lookupKey, if_neg h, ih, List.map_cons, List.mem_cons]
      constructor
      · intro hm
        rintro (rfl | hmm)
        · exact h rfl
        · exact hm hmm
      · intro hm hmm
        exact hm (Or.inr hmm)

/-- On a duplicate-free association list, membership determines lookup. -/
theorem lookupKey_eq_of_mem {κ : Type} [DecidableEq κ] (k : κ) (a : Agg) :
    ∀ (l : List (κ × Agg)), (l.map Prod.fst).Nodup → (k, a) ∈ l →
      lookupKey k l = some a := by
  intro l
  induction l with
  | nil => intro _ h; simp at h
  | cons hd tl ih =>
    intro hn hmem
    obtain ⟨k', a'⟩ := hd
    rw [List.map_cons] at hn
    have hn' := List.nodup_cons.mp hn
    rcases List.mem_cons.mp hmem with heq | htl
    · injection heq with h1 h2
      subst h1
      subst h2
      simp [lookupKey]
    · have hk' : k' ≠ k := by
        rintro rfl
        exact hn'.1 (List.mem_map.mpr ⟨(k', a), htl, rfl⟩)
      simp only [lookupKey, if_neg hk']
      exact ih hn'.2 htl

/-- The entry of `dailySummary` at a present key is exactly the sums and
count over the matching catalog rows. -/
theorem dailySummary_lookup (catalog : List Pass) (k : ℤ × String × String)
    (a : Agg) (hmem : (k, a) ∈ dailySummary catalog) : a = aggOf catalog k := by
  have hnodup : ((dailySummary catalog).map Prod.fst).Nodup :=
    upsertFold_nodup passKey passAgg catalog [] (by simp)
  have hl : lookupKey k (dailySummary catalog) = some a :=
    lookupKey_eq_of_mem k a (dailySummary catalog) hnodup hmem
  have hmain := upsertFold_lookup passKey passAgg catalog [] k
  rw [show (dailySummary catalog) =
      catalog.foldl (fun acc p => upsert (passKey p) (passAgg p) acc) [] from rfl,
    hmain] at hl
  simp only [lookupKey] at hl
  by_cases hex : ∃ p ∈ catalog, passKey p = k
  · rw [if_pos hex] at hl
    have := Option.some.injEq .. ▸ hl
    injection hl with hval
    rw [← hval, sumAggOf_passAgg]
    rfl
  · rw [if_neg hex] at hl
    exact absurd hl (by simp)

/-- Claim C5: first-level groups carry exactly the sum of `duration_s`,
the sum of `data_mb_est` and the count of the catalog rows with their
`(UTC rise date, satellite, station)` key; group keys are
duplicate-free at both levels and every Pass's key (resp. date) occurs,
so each Pass contributes to exactly one group at each level; and an
empty catalog yields empty summaries. -/
theorem C5_aggregation (catalog : List Pass) :
    (∀ (k : ℤ × String × String) (a : Agg),
        (k, a) ∈ dailySummary catalog → a = aggOf catalog k) ∧
    ((dailySummary catalog).map Prod.fst).Nodup ∧
    (∀ p ∈ catalog, passKey p ∈ (dailySummary catalog).map Prod.fst) ∧
    ((dailyTotal (dailySummary catalog)).map Prod.fst).Nodup ∧
    (∀ p ∈ catalog,
        (passKey p).1 ∈ (dailyTotal (dailySummary catalog)).map Prod.fst) ∧
    (dailySummary ([] : List Pass) = [] ∧
      dailyTotal (dailySummary ([] : List Pass)) = []) := by
  refine ⟨dailySummary_lookup catalog,
    upsertFold_nodup passKey passAgg catalog [] (by simp), ?_, ?_, ?_, rfl, rfl⟩
  · intro p hp
    exact (upsertFold_mem passKey passAgg catalog [] (passKey p)).mpr
      (Or.inr ⟨p, hp, rfl⟩)
  · exact upsertFold_nodup (fun x => x.1.1) (fun x => x.2)
      (dailySummary catalog) [] (by simp)
  · intro p hp
    have hkey : passKey p ∈ (dailySummary catalog).map Prod.fst :=
      (upsertFold_mem passKey passAgg catalog [] (passKey p)).mpr
        (Or.inr ⟨p, hp, rfl⟩)
    obtain ⟨g, hg, hfst⟩ := List.mem_map.mp hkey
    exact (upsertFold_mem (fun x => x.1.1) (fun x => x.2)
        (dailySummary catalog) [] (passKey p).1).mpr
      (Or.inr ⟨g, hg, by rw [hfst]⟩)

/-- Witness for C5: on the one-row catalog `[pass0]` the single
first-level group's measures equal the row's duration, data estimate
and a count of 1. -/
theorem C5_witness :
    ({ total_contact_s := 600, total_data_mb := 600, passes := 1 } : Agg) =
      aggOf [pass0] (0, "SAT-1", "GS-A") :=
  (C5_aggregation [pass0]).1 (0, "SAT-1", "GS-A")
    { total_contact_s := 600, total_data_mb := 600, passes := 1 }
    (by norm_num [dailySummary, upsert, passKey, passAgg, pass0])

/-! ## Ordering of emitted passes -/

/-- If every event timestamp is at least `b`, every emitted pass has its
rise and set instants at least `b`. -/
theorem scanPasses_lower_bound (c : PairCfg) (es : List Ev) (b : ℚ)
    (hb : ∀ e ∈ es, b ≤ e.1) :
    ∀ p ∈ scanPasses c es, b ≤ p.aos_utc ∧ b ≤ p.los_utc := by
  induction es using scanPasses.induct c with
  | case1 e1 e2 e3 rest hk hd ih =>
    rw [scanPasses_cons3, if_pos hk, if_pos hd]
    exact ih (fun e he => hb e (by simp [he, List.mem_cons]))
  | case2 e1 e2 e3 rest hk hd ih =>
    rw [scanPasses_cons3, if_pos hk, if_neg hd]
    intro p hp
    rcases List.mem_cons.mp hp with rfl | hp'
    · exact ⟨hb e1 (by simp), hb e3 (by simp)⟩
    · exact ih (fun e he => hb e (by simp [he, List.mem_cons])) p hp'
  | case3 e1 e2 e3 rest hk ih =>
    rw [scanPasses_cons3, if_neg hk]
    exact ih (fun e he => hb e (by simp [he, List.mem_cons]))
  | case4 es h1 =>
    have hlen : es.length ≤ 2 := by
      match es, h1 with
      | [], _ => simp
      | [_], _ => simp
      | [_, _], _ => simp
      | e1 :: e2 :: e3 :: rest, h1 => exact absurd rfl (h1 e1 e2 e3 rest)
    rw [scanPasses_of_length_le_two c es hlen]
    simp

/-- Claim C10 (implicit): on a chronologically ordered event stream, the
emitted passes are in order — each pass's set instant is at most the
next pass's rise instant (so rise times are non-decreasing and the
rise-to-set intervals do not overlap), and every pass's rise is at most
its set. -/
theorem C10_pass_ordering (c : PairCfg) (es : List Ev)
    (hsorted : es.Pairwise (fun a b => a.1 ≤ b.1)) :
    (scanPasses c es).Chain' (fun p q => p.los_utc ≤ q.aos_utc) ∧
    ∀ p ∈ scanPasses c es, p.aos_utc ≤ p.los_utc := by
  induction es using scanPasses.induct c with
  | case1 e1 e2 e3 rest hk hd ih =>
    rw [scanPasses_cons3, if_pos hk, if_pos hd]
    exact ih (((hsorted.sublist (List.sublist_cons_self _ _)).sublist
      (List.sublist_cons_self _ _)).sublist (List.sublist_cons_self _ _))
  | case2 e1 e2 e3 rest hk hd ih =>
    rw [scanPasses_cons3, if_pos hk, if_neg hd]
    have hrest : rest.Pairwise (fun a b => a.1 ≤ b.1) :=
      ((hsorted.sublist (List.sublist_cons_self _ _)).sublist
        (List.sublist_cons_self _ _)).sublist (List.sublist_cons_self _ _)
    have h13 : e1.1 ≤ e3.1 :=
      (List.pairwise_cons.mp hsorted).1 e3 (by simp)
    have h3rest : ∀ e ∈ rest, e3.1 ≤ e.1 := by
      have h2 := (List.pairwise_cons.mp
        (List.pairwise_cons.mp
          (List.pairwise_cons.mp hsorted).2).2).1
      exact fun e he => h2 e he
    have hlb := scanPasses_lower_bound c rest e3.1 h3rest
    obtain ⟨ihchain, ihbound⟩ := ih hrest
    constructor
    · rw [List.chain'_cons']
      refine ⟨?_, ihchain⟩
      intro q hq
      have hqmem : q ∈ scanPasses c rest := by
        cases hh : (scanPasses c rest).head? with
        | none => rw [hh] at hq; simp at hq
        | some q' =>
          rw [hh] at hq
          simp at hq
          subst hq
          exact List.mem_of_mem_head? hh
      exact (hlb q hqmem).1
    · intro p hp
      rcases List.mem_cons.mp hp with rfl | hp'
      · exact h13
      · exact ihbound p hp'
  | case3 e1 e2 e3 rest hk ih =>
    rw [scanPasses_cons3, if_neg hk]
    exact ih (hsorted.sublist (List.sublist_cons_self _ _))
  | case4 es h1 =>
    have hlen : es.length ≤ 2 := by
      match es, h1 with
      | [], _ => simp
      | [_], _ => simp
      | [_, _], _ => simp
      | e1 :: e2 :: e3 :: rest, h1 => exact absurd rfl (h1 e1 e2 e3 rest)
    rw [scanPasses_of_length_le_two c es hlen]
    simp

/-- Witness for C10: a sorted six-event stream producing two passes —
the chain and rise-before-set properties hold on it. -/
theorem C10_witness :
    (scanPasses (cfg0 0)
        [(0, .rise), (100, .culminate), (200, .fall),
         (300, .rise), (400, .culminate), (500, .fall)]).Chain'
      (fun p q => p.los_utc ≤ q.aos_utc) ∧
    ∀ p ∈ scanPasses (cfg0 0)
        [(0, .rise), (100, .culminate), (200, .fall),
         (300, .rise), (400, .culminate), (500, .fall)],
      p.aos_utc ≤ p.los_utc :=
  C10_pass_ordering (cfg0 0)
    [(0, .rise), (100, .culminate), (200, .fall),
     (300, .rise), (400, .culminate), (500, .fall)]
    (by norm_num [List.pairwise_cons])

end RunPasses
